import Mathlib

/-!
Verification of the speech assistant core (`listen_loop.py`): phrase
tokenization and wake-word stripping, command matching, skill dispatch,
and the candidate-reinforcement operations on the skill table.
Strings are modelled as Lean strings (lists of characters); Python
`str.split()` is modelled by `splitWs`, `' '.join` by `joinW`, and
`str.lower()` by `Char.toLower` mapped over the characters (the inputs
of interest are ASCII).  A Python value that may be `None` is modelled
as an `Option`.
-/

set_option maxRecDepth 100000

namespace SpeechAssistant

/-- One word of a phrase, as a list of characters. -/
abbrev Word := List Char

/-- Accumulator-based splitter behind `splitWs`; `acc` holds the
current word reversed. -/
def splitWsAux : List Char → List Char → List Word
  | [], acc => if acc = [] then [] else [acc.reverse]
  | c :: cs, acc =>
    if c.isWhitespace then
      if acc = [] then splitWsAux cs [] else acc.reverse :: splitWsAux cs []
    else
      splitWsAux cs (c :: acc)

/-- Python `str.split()` with no arguments: split on runs of whitespace,
discarding empty pieces. -/
def splitWs (l : List Char) : List Word :=
  splitWsAux l []

/-- Python `' '.join(words)`: words joined by single spaces. -/
def joinW : List Word → List Char
  | [] => []
  | [w] => w
  | w :: x :: ws => w ++ ' ' :: joinW (x :: ws)

/-- Python `str.lower()`, character by character (ASCII). -/
def lowerW (w : List Char) : List Char :=
  w.map Char.toLower

/-- `remove_leading_words(phrase, leader)` from `listen_loop.py` for a
non-`None` phrase: tokenize the phrase, re-join its first
`len(leader.split())` tokens with single spaces, compare with the
leader case-insensitively, and on a match return the remaining tokens
re-joined; otherwise (and for a falsy phrase) return the phrase
unchanged. -/
def remove_leading_words (phrase leader : List Char) : List Char :=
  if phrase = [] then phrase
  else
    let phrase_parts := splitWs phrase
    let leader_len := (splitWs leader).length
    let phrase_start := joinW (phrase_parts.take leader_len)
    if lowerW leader = lowerW phrase_start then
      joinW (phrase_parts.drop leader_len)
    else
      phrase

/-- `remove_leading_words` on a possibly-`None` phrase: `None` is falsy
in Python, so it is returned unchanged. -/
def remove_leading_words_opt : Option (List Char) → List Char → Option (List Char)
  | none, _ => none
  | some p, leader => some (remove_leading_words p leader)

/-- `starts_with(phrase, leader)` from `listen_loop.py`: true iff
`remove_leading_words` changes the value. -/
def starts_with (phrase : Option (List Char)) (leader : List Char) : Bool :=
  remove_leading_words_opt phrase leader ≠ phrase

example : remove_leading_words "panda turn on the lights".data "Panda".data
    = "turn on the lights".data := by decide
example : remove_leading_words "hi there".data "hi ".data = "hi there".data := by decide
example : Char.toLower ' ' = ' ' := by decide

/-- `remove_leading_words` lifted back to Lean strings, for the
dispatcher and interpreter. -/
def removeLeadingWordsS (phrase leader : String) : String :=
  String.mk (remove_leading_words phrase.data leader.data)

/-- One entry of the skill table (`skills.json` / `default_skills.json`):
an ordered list of committed commands, candidate commands with their
reinforcement counts (a Python dict, modelled as an association list),
and the optional `response` / `random` / `pattern` keys. -/
structure SkillData where
  commands : List String
  candidates : List (String × Int)
  response : Option String
  random : Option (List String)
  pattern : Option String
deriving DecidableEq, Repr

/-- Lookup in a candidates dict (`command in candidates` plus
`candidates[command]`). -/
def lookupC : List (String × Int) → String → Option Int
  | [], _ => none
  | (k, v) :: rest, key => if k = key then some v else lookupC rest key

/-- Dict assignment `candidates[command] = v`: update the binding in
place, or append a new one. -/
def setC : List (String × Int) → String → Int → List (String × Int)
  | [], key, v => [(key, v)]
  | (k, w) :: rest, key, v =>
    if k = key then (k, v) :: rest else (k, w) :: setC rest key v

/-- Dict deletion `del candidates[command]`: drop the bindings of the
key. -/
def delC : List (String × Int) → String → List (String × Int)
  | [], _ => []
  | (k, v) :: rest, key =>
    if k = key then delC rest key else (k, v) :: delC rest key

/-- `Assistant.increase_command_candidate`, acting on the one skill
entry it reads and writes (`self.__skills[skill]`); `threshold` is
`self.threshold`.  An existing candidate count is incremented and, on
reaching the threshold, the phrase moves from `candidates` to the end
of `commands`; a fresh phrase is inserted with count 1. -/
def increase_command_candidate (threshold : Int) (sk : SkillData)
    (command : String) : SkillData :=
  match lookupC sk.candidates command with
  | some n =>
    let n1 := n + 1
    if threshold ≤ n1 then
      { sk with commands := sk.commands ++ [command],
                candidates := delC sk.candidates command }
    else
      { sk with candidates := setC sk.candidates command n1 }
  | none => { sk with candidates := setC sk.candidates command 1 }

/-- `Assistant.decrease_command_candidate`, acting on the one skill
entry it reads and writes.  An existing candidate count is decremented
and, on dropping below 0, the candidate is deleted; a phrase that is
not a candidate is left alone. -/
def decrease_command_candidate (_threshold : Int) (sk : SkillData)
    (command : String) : SkillData :=
  match lookupC sk.candidates command with
  | some n =>
    let n1 := n - 1
    if n1 < 0 then
      { sk with candidates := delC sk.candidates command }
    else
      { sk with candidates := setC sk.candidates command n1 }
  | none => sk

/-- A reinforcement call: one of the two candidate operations on a
skill entry. -/
inductive CmdOp where
  | inc (phrase : String)
  | dec (phrase : String)
deriving DecidableEq, Repr

/-- Apply one reinforcement call. -/
def applyOp (threshold : Int) (sk : SkillData) : CmdOp → SkillData
  | .inc p => increase_command_candidate threshold sk p
  | .dec p => decrease_command_candidate threshold sk p

/-- Run a finite sequence of reinforcement calls on a skill entry. -/
def runOps (threshold : Int) (sk : SkillData) : List CmdOp → SkillData
  | [] => sk
  | op :: rest => runOps threshold (applyOp threshold sk op) rest

/-- Every candidate count of the entry lies in `[0, threshold)`. -/
def CandInv (threshold : Int) (sk : SkillData) : Prop :=
  ∀ kv ∈ sk.candidates, 0 ≤ kv.2 ∧ kv.2 < threshold

/-- No phrase is simultaneously a committed command and a candidate of
the same skill. -/
def Excl (sk : SkillData) : Prop :=
  ∀ p ∈ sk.commands, lookupC sk.candidates p = none

/-- A sequence of reinforcement calls never increases a phrase that is
already a committed command of the entry at that point. -/
def SafeOps (threshold : Int) : SkillData → List CmdOp → Prop
  | _, [] => True
  | sk, op :: rest =>
    (match op with
     | .inc p => p ∉ sk.commands
     | .dec _ => True) ∧ SafeOps threshold (applyOp threshold sk op) rest

instance (threshold : Int) (sk : SkillData) : Decidable (CandInv threshold sk) := by
  unfold CandInv
  infer_instance

instance (sk : SkillData) : Decidable (Excl sk) := by
  unfold Excl
  infer_instance

/-- The skill table: `self.__skills`, a JSON object whose key order is
the Python dict iteration order. -/
abbrev SkillTable := List (String × SkillData)

/-- Python dict lookup `self.__skills[name]` (first binding wins; a
loaded JSON object has unique keys). -/
def lookupSkill : SkillTable → String → Option SkillData
  | [], _ => none
  | (k, v) :: rest, key => if k = key then some v else lookupSkill rest key

/-- The ambient nondeterminism used by `do_skill`: the index drawn by
`random.choice` and the `time.strftime` rendering of the current local
time for a given pattern. -/
structure Env where
  pick : Nat
  strftime : String → String

/-- `random.choice(choices)`: some element of the list, `none` (an
`IndexError`) when the list is empty. -/
def randomChoice (pick : Nat) (choices : List String) : Option String :=
  choices.get? (pick % choices.length)

/-- Python string comparison for `sorted`: lexicographic by code
point, modelled on the character lists. -/
def pyLe (a b : String) : Prop :=
  a.data ≤ b.data

instance : IsTotal String pyLe :=
  ⟨fun a b => le_total a.data b.data⟩

instance : IsTrans String pyLe :=
  ⟨fun _ _ _ h1 h2 => le_trans h1 h2⟩

instance (a b : String) : Decidable (pyLe a b) := by
  unfold pyLe
  infer_instance

/-- The general `help` listing: the usage line followed by all skill
names in sorted order, joined by the fixed separator. -/
def helpGeneral (skills : SkillTable) : String :=
  String.intercalate ": ... "
    ("To list commands for a specific skill, simply say \"help\" followed by the name of the skill.  The following skills are currently supported"
      :: List.insertionSort pyLe (skills.map Prod.fst))

/-- The `help` listing for one known skill: the introductory line
followed by that skill's committed commands. -/
def helpForSkill (operand : String) (d : SkillData) : String :=
  String.intercalate ": ... "
    (("These commands are available for the \"" ++ operand ++ "\" skill")
      :: d.commands)

/-- `Assistant.do_skill(skill, operand)`.  Returns the response
(`none` models an uncaught exception: a missing table key, an empty
`random` list, or a `date` skill without a `pattern`) together with the
new value of the `self.__exit_loop` flag.  The branch order follows the
source: a `response` key first, then `random`, then the code-handled
skill names, then the fallback message. -/
def do_skill (env : Env) (skills : SkillTable) (exitLoop : Bool)
    (skill operand : String) : Option String × Bool :=
  match lookupSkill skills skill with
  | none => (none, exitLoop)
  | some resources =>
    match resources.response with
    | some r => (some r, exitLoop)
    | none =>
      match resources.random with
      | some choices => (randomChoice env.pick choices, exitLoop)
      | none =>
        if skill = "help" then
          if operand ≠ "" then
            match lookupSkill skills operand with
            | some d => (some (helpForSkill operand d), exitLoop)
            | none => (some (helpGeneral skills), exitLoop)
          else (some (helpGeneral skills), exitLoop)
        else if skill = "date" then
          match resources.pattern with
          | some pat => (some (env.strftime pat), exitLoop)
          | none => (none, exitLoop)
        else if skill = "time" then
          (some (env.strftime "It is now %H:%M"), exitLoop)
        else if skill = "quit" then
          (some "Stopping now", true)
        else if skill = "turn on" then
          if operand ≠ "" then
            (some ("I cannot turn on " ++ operand), exitLoop)
          else
            (some "You need to tell me what to turn on", exitLoop)
        else
          (some ("I am not yet programmed for the skill " ++ skill), exitLoop)

/-- A skill-table entry of one of the documented shapes: a fixed
response, a non-empty random response set, or a code-handled skill
(no `response` or `random` key; a `date` skill carries its `pattern`). -/
def wellFormedEntry (name : String) (d : SkillData) : Prop :=
  (∃ r, d.response = some r)
  ∨ (∃ l, d.random = some l ∧ l ≠ [])
  ∨ (d.response = none ∧ d.random = none ∧ (name = "date" → d.pattern.isSome))

/-- Outcome of `Assistant.process_command` (and of the interpreter
above it): a returned response value (a string, or Python `None`),
with the exit flag, or an exception escaping. -/
inductive PCResult where
  | done (resp : Option String) (flag : Bool)
  | raised (flag : Bool)
deriving DecidableEq, Repr

/-- The inner `for command in [skill] + commands` loop of
`process_command`: the operand produced by the first leader whose
removal changes the phrase, if any. -/
def firstChanged (phrase : String) : List String → Option String
  | [] => none
  | c :: rest =>
    let operand := removeLeadingWordsS phrase c
    if operand ≠ phrase then some operand else firstChanged phrase rest

/-- The outer `for skill in self.__skills` loop of `process_command`:
scan the remaining skills, keeping the last (possibly falsy) response;
a matched skill is dispatched, and iteration stops once a dispatched
response is truthy. -/
def pcLoop (env : Env) (table : SkillTable) (phrase : String) :
    List (String × SkillData) → Bool → Option String → PCResult
  | [], flag, resp => .done resp flag
  | (name, d) :: rest, flag, resp =>
    match firstChanged phrase (name :: d.commands) with
    | some operand =>
      match do_skill env table flag name operand with
      | (none, flag1) => .raised flag1
      | (some s, flag1) =>
        if s ≠ "" then .done (some s) flag1
        else pcLoop env table phrase rest flag1 (some s)
    | none => pcLoop env table phrase rest flag resp

/-- `Assistant.process_command(phrase)`.  The interactive fallback
`learn_command` (which blocks on further utterances) is abstracted as
the function `learn`; it is invoked exactly when the matching loop
ends with a falsy response. -/
def process_command (env : Env) (table : SkillTable)
    (learn : String → Bool → PCResult) (phrase : Option String)
    (flag : Bool) : PCResult :=
  match phrase with
  | none => .done (some "I do not understand what you are trying to tell me!") flag
  | some p =>
    if p = "" then
      .done (some "I do not understand what you are trying to tell me!") flag
    else
      match pcLoop env table p table flag none with
      | .raised flag1 => .raised flag1
      | .done resp flag1 =>
        match resp with
        | some s => if s ≠ "" then .done (some s) flag1 else learn p flag1
        | none => learn p flag1

/-- The flattened scan order of `process_command`, stated from the
specification: skills in table order, and for each skill the leaders
`[skill_name] + commands` in list order. -/
def scanOrder (table : SkillTable) : List (String × String) :=
  table.flatMap (fun sk => (sk.1 :: sk.2.commands).map (fun c => (sk.1, c)))

/-- Stated from the specification: the first leader in the flattened
scan order whose removal actually changes the phrase, together with
the skill it belongs to and the remainder of the phrase. -/
def firstHit (phrase : String) : List (String × String) → Option (String × String)
  | [] => none
  | (name, c) :: rest =>
    let operand := removeLeadingWordsS phrase c
    if operand ≠ phrase then some (name, operand) else firstHit phrase rest

/-- Python `'%s' % phrase` for a possibly-`None` phrase. -/
def pyShow : Option String → String
  | none => "None"
  | some s => s

/-- Lines 249-251 of `listen_loop.py`: the diagnostic string about the
missing wake word is built and then immediately overwritten by `None`,
so the `None` is what flows on (the built string is a dead store in
the source). -/
def wakeWordMissing (heard : Option String) : Option String :=
  let _diagnostic :=
    "Wake word was not found, but I heard \"" ++ pyShow heard ++ "\""
  none

/-- `Assistant.process_phrase(phrase, require_wake_word)`.  The call
into `process_command` (and everything below it) is abstracted as
`pc`; a falsy phrase after wake-word handling yields `None` without
any command processing. -/
def process_phrase (pc : String → Bool → PCResult) (aliasWord : String)
    (phrase : Option String) (require_wake_word : Bool) (flag : Bool) :
    PCResult :=
  let phrase1 : Option String :=
    if starts_with (phrase.map String.data) aliasWord.data then
      (remove_leading_words_opt (phrase.map String.data) aliasWord.data).map String.mk
    else if require_wake_word then
      wakeWordMissing phrase
    else
      phrase
  match phrase1 with
  | some p => if p ≠ "" then pc p flag else .done none flag
  | none => .done none flag

theorem lookupC_setC_self (l : List (String × Int)) (k : String) (v : Int) :
    lookupC (setC l k v) k = some v := by
  induction l with
  | nil => simp [setC, lookupC]
  | cons kv rest ih =>
    obtain ⟨a, b⟩ := kv
    by_cases h : a = k <;> simp [setC, lookupC, h, ih]

theorem lookupC_setC_other (l : List (String × Int)) (k k' : String) (v : Int)
    (h : k' ≠ k) : lookupC (setC l k v) k' = lookupC l k' := by
  have h' : k ≠ k' := Ne.symm h
  induction l with
  | nil => simp [setC, lookupC, h']
  | cons kv rest ih =>
    obtain ⟨a, b⟩ := kv
    by_cases ha : a = k
    · subst ha
      simp [setC, lookupC, h']
    · simp [setC, lookupC, ha, ih]

theorem lookupC_delC_self (l : List (String × Int)) (k : String) :
    lookupC (delC l k) k = none := by
  induction l with
  | nil => simp [delC, lookupC]
  | cons kv rest ih =>
    obtain ⟨a, b⟩ := kv
    by_cases ha : a = k <;> simp [delC, lookupC, ha, ih]

theorem lookupC_delC_other (l : List (String × Int)) (k k' : String)
    (h : k' ≠ k) : lookupC (delC l k) k' = lookupC l k' := by
  have h' : k ≠ k' := Ne.symm h
  induction l with
  | nil => simp [delC, lookupC]
  | cons kv rest ih =>
    obtain ⟨a, b⟩ := kv
    by_cases ha : a = k
    · subst ha
      simp [delC, lookupC, h', ih]
    · simp [delC, lookupC, ha, ih]

theorem mem_setC (l : List (String × Int)) (k : String) (v : Int)
    (kv : String × Int) (h : kv ∈ setC l k v) : kv ∈ l ∨ kv = (k, v) := by
  induction l with
  | nil => simpa [setC] using h
  | cons hd rest ih =>
    obtain ⟨a, b⟩ := hd
    by_cases ha : a = k
    · subst ha
      rcases (by simpa [setC] using h : kv = (a, v) ∨ kv ∈ rest) with h1 | h1
      · exact Or.inr (by simp [h1])
      · exact Or.inl (List.mem_cons_of_mem _ h1)
    · rcases (by simpa [setC, ha] using h : kv = (a, b) ∨ kv ∈ setC rest k v) with h1 | h1
      · exact Or.inl (by simp [h1])
      · rcases ih h1 with h2 | h2
        · exact Or.inl (List.mem_cons_of_mem _ h2)
        · exact Or.inr h2

theorem mem_delC (l : List (String × Int)) (k : String)
    (kv : String × Int) (h : kv ∈ delC l k) : kv ∈ l := by
  induction l with
  | nil => simp [delC] at h
  | cons hd rest ih =>
    obtain ⟨a, b⟩ := hd
    by_cases ha : a = k
    · simp only [delC, ha, if_true] at h
      exact List.mem_cons_of_mem _ (ih h)
    · rcases (by simpa [delC, ha] using h : kv = (a, b) ∨ kv ∈ delC rest k) with h1 | h1
      · simp [h1]
      · exact List.mem_cons_of_mem _ (ih h1)

theorem lookupC_mem (l : List (String × Int)) (k : String) (v : Int)
    (h : lookupC l k = some v) : (k, v) ∈ l := by
  induction l with
  | nil => simp [lookupC] at h
  | cons hd rest ih =>
    obtain ⟨a, b⟩ := hd
    by_cases ha : a = k
    · subst ha
      simp [lookupC] at h
      simp [h]
    · simp [lookupC, ha] at h
      exact List.mem_cons_of_mem _ (ih h)

/-- One `increase_command_candidate` call keeps every candidate count
in `[0, threshold)`, provided the threshold is at least 2 (a fresh
insertion has count 1). -/
theorem candInv_increase (θ : Int) (hθ : 2 ≤ θ) (sk : SkillData)
    (h : CandInv θ sk) (p : String) :
    CandInv θ (increase_command_candidate θ sk p) := by
  unfold increase_command_candidate
  cases hl : lookupC sk.candidates p with
  | none =>
    intro kv hkv
    simp only at hkv
    rcases mem_setC _ _ _ _ hkv with h1 | h1
    · exact h kv h1
    · subst h1
      exact ⟨by norm_num, by omega⟩
  | some n =>
    have hn := h (p, n) (lookupC_mem _ _ _ hl)
    simp only at hn
    by_cases hth : θ ≤ n + 1
    · simp only [hth, if_true]
      intro kv hkv
      exact h kv (mem_delC _ _ _ hkv)
    · simp only [hth, if_false]
      intro kv hkv
      simp only at hkv
      rcases mem_setC _ _ _ _ hkv with h1 | h1
      · exact h kv h1
      · subst h1
        exact ⟨by omega, by omega⟩

/-- One `decrease_command_candidate` call keeps every candidate count
in `[0, threshold)`. -/
theorem candInv_decrease (θ : Int) (sk : SkillData)
    (h : CandInv θ sk) (p : String) :
    CandInv θ (decrease_command_candidate θ sk p) := by
  unfold decrease_command_candidate
  cases hl : lookupC sk.candidates p with
  | none => exact h
  | some n =>
    have hn := h (p, n) (lookupC_mem _ _ _ hl)
    simp only at hn
    by_cases hneg : n - 1 < 0
    · simp only [hneg, if_true]
      intro kv hkv
      exact h kv (mem_delC _ _ _ hkv)
    · simp only [hneg, if_false]
      intro kv hkv
      simp only at hkv
      rcases mem_setC _ _ _ _ hkv with h1 | h1
      · exact h kv h1
      · subst h1
        exact ⟨by omega, by omega⟩

/-- The count bound is preserved by every finite sequence of
reinforcement calls (threshold at least 2). -/
theorem candInv_runOps (θ : Int) (hθ : 2 ≤ θ) (sk : SkillData)
    (h : CandInv θ sk) (ops : List CmdOp) :
    CandInv θ (runOps θ sk ops) := by
  induction ops generalizing sk with
  | nil => exact h
  | cons op rest ih =>
    cases op with
    | inc p => exact ih _ (candInv_increase θ hθ sk h p)
    | dec p => exact ih _ (candInv_decrease θ sk h p)

/-- `increase_command_candidate` preserves command/candidate
exclusivity when the increased phrase is not already a committed
command. -/
theorem excl_increase (θ : Int) (sk : SkillData) (h : Excl sk)
    (p : String) (hp : p ∉ sk.commands) :
    Excl (increase_command_candidate θ sk p) := by
  unfold increase_command_candidate
  cases hl : lookupC sk.candidates p with
  | none =>
    intro q hq
    simp only at hq ⊢
    have hqp : q ≠ p := fun e => hp (e ▸ hq)
    rw [lookupC_setC_other _ _ _ _ hqp]
    exact h q hq
  | some n =>
    by_cases hth : θ ≤ n + 1
    · simp only [hth, if_true]
      intro q hq
      simp only at hq ⊢
      rcases List.mem_append.mp hq with h1 | h1
      · have hqp : q ≠ p := by
          intro e
          subst e
          exact (h q h1).symm.trans hl |> Option.noConfusion
        rw [lookupC_delC_other _ _ _ hqp]
        exact h q h1
      · have hqp : q = p := by simpa using h1
        subst hqp
        exact lookupC_delC_self _ _
    · simp only [hth, if_false]
      intro q hq
      simp only at hq ⊢
      have hqp : q ≠ p := fun e => hp (e ▸ hq)
      rw [lookupC_setC_other _ _ _ _ hqp]
      exact h q hq

/-- `decrease_command_candidate` always preserves command/candidate
exclusivity. -/
theorem excl_decrease (θ : Int) (sk : SkillData) (h : Excl sk)
    (p : String) : Excl (decrease_command_candidate θ sk p) := by
  unfold decrease_command_candidate
  cases hl : lookupC sk.candidates p with
  | none => exact h
  | some n =>
    by_cases hneg : n - 1 < 0
    · simp only [hneg, if_true]
      intro q hq
      simp only at hq ⊢
      by_cases hqp : q = p
      · subst hqp
        exact lookupC_delC_self _ _
      · rw [lookupC_delC_other _ _ _ hqp]
        exact h q hq
    · simp only [hneg, if_false]
      intro q hq
      simp only at hq ⊢
      have hqp : q ≠ p := by
        intro e
        subst e
        exact (h q hq).symm.trans hl |> Option.noConfusion
      rw [lookupC_setC_other _ _ _ _ hqp]
      exact h q hq

/-- Guarded sequences of reinforcement calls preserve
command/candidate exclusivity. -/
theorem excl_runOps (θ : Int) (sk : SkillData) (h : Excl sk)
    (ops : List CmdOp) (hops : SafeOps θ sk ops) :
    Excl (runOps θ sk ops) := by
  induction ops generalizing sk with
  | nil => exact h
  | cons op rest ih =>
    obtain ⟨hop, hrest⟩ := hops
    cases op with
    | inc p => exact ih _ (excl_increase θ sk h p hop) hrest
    | dec p => exact ih _ (excl_decrease θ sk h p) hrest

/-- C2: the claim fails for a threshold of 1 (and likewise 0 or
below): starting from an empty candidates table, whose counts all lie
in `[0, 1)` vacuously, a single increase inserts the phrase with count
1, which is not below the threshold, yet the phrase stays in
`candidates` and `commands` stays empty. -/
theorem claim_C2_counterexample :
    CandInv 1 ⟨[], [], none, none, none⟩
    ∧ runOps 1 ⟨[], [], none, none, none⟩ [CmdOp.inc "p"]
        = ⟨[], [("p", 1)], none, none, none⟩
    ∧ ¬ ((1 : Int) < 1) := by decide

/-- C2 (amended): provided the threshold is at least 2, after any
finite sequence of increase/decrease calls starting from a skill entry
whose candidate counts all lie in `[0, threshold)`, every count still
present satisfies `0 <= count < threshold`; and in any state, a call
whose incremented count reaches the threshold removes the phrase from
`candidates` and appends it to `commands` exactly once, while a call
whose decremented count drops below 0 removes the phrase from
`candidates` without touching `commands`. -/
theorem claim_C2_reinforcement_bound (θ : Int) (hθ : 2 ≤ θ)
    (sk : SkillData) (h : CandInv θ sk) (ops : List CmdOp) :
    CandInv θ (runOps θ sk ops)
    ∧ (∀ p n, lookupC sk.candidates p = some n → θ ≤ n + 1 →
        (increase_command_candidate θ sk p).commands = sk.commands ++ [p]
        ∧ lookupC (increase_command_candidate θ sk p).candidates p = none)
    ∧ (∀ p n, lookupC sk.candidates p = some n → n - 1 < 0 →
        (decrease_command_candidate θ sk p).commands = sk.commands
        ∧ lookupC (decrease_command_candidate θ sk p).candidates p = none) := by
  refine ⟨candInv_runOps θ hθ sk h ops, ?_, ?_⟩
  · intro p n hl hth
    simp only [increase_command_candidate, hl, hth, if_true]
    exact ⟨trivial, lookupC_delC_self _ _⟩
  · intro p n hl hneg
    simp only [decrease_command_candidate, hl, hneg, if_true]
    exact ⟨trivial, lookupC_delC_self _ _⟩

/-- Witness for C2 (amended) at threshold 3: the candidate at count 2
is promoted by one increase and the bound still holds afterwards. -/
theorem claim_C2_reinforcement_bound_witness :
    CandInv 3 (runOps 3 ⟨[], [("w", 2)], none, none, none⟩ [CmdOp.inc "w"])
    ∧ (increase_command_candidate 3 ⟨[], [("w", 2)], none, none, none⟩ "w").commands
        = [] ++ ["w"] :=
  ⟨(claim_C2_reinforcement_bound 3 (by norm_num)
      ⟨[], [("w", 2)], none, none, none⟩ (by decide) [CmdOp.inc "w"]).1,
   ((claim_C2_reinforcement_bound 3 (by norm_num)
      ⟨[], [("w", 2)], none, none, none⟩ (by decide) [CmdOp.inc "w"]).2.1
      "w" 2 (by decide) (by norm_num)).1⟩

/-- C3: the exclusivity claim fails on the code: from an empty entry
(where exclusivity holds), three increases at threshold 3 promote the
phrase into `commands`, and a fourth increase re-inserts it into
`candidates`, so the phrase is then in both. -/
theorem claim_C3_counterexample :
    Excl ⟨[], [], none, none, none⟩
    ∧ "p" ∈ (runOps 3 ⟨[], [], none, none, none⟩
        [CmdOp.inc "p", CmdOp.inc "p", CmdOp.inc "p", CmdOp.inc "p"]).commands
    ∧ lookupC (runOps 3 ⟨[], [], none, none, none⟩
        [CmdOp.inc "p", CmdOp.inc "p", CmdOp.inc "p", CmdOp.inc "p"]).candidates "p"
        = some 1 := by
  refine ⟨?_, by decide, by decide⟩
  intro q hq
  simp at hq

/-- C3 (amended): at every skill-entry state reachable by
`increase_command_candidate` and `decrease_command_candidate` from a
state where no phrase is both a command and a candidate, exclusivity
still holds, provided no increase in the sequence is applied to a
phrase already committed in `commands` at that point (a further
increase of an already-promoted phrase re-inserts it as a candidate). -/
theorem claim_C3_exclusivity (θ : Int) (sk : SkillData) (h : Excl sk)
    (ops : List CmdOp) (hops : SafeOps θ sk ops) :
    Excl (runOps θ sk ops) :=
  excl_runOps θ sk h ops hops

/-- Witness for C3 (amended): an increase followed by a decrease of a
fresh phrase keeps exclusivity. -/
theorem claim_C3_exclusivity_witness :
    Excl (runOps 3 ⟨[], [], none, none, none⟩ [CmdOp.inc "q", CmdOp.dec "q"]) :=
  claim_C3_exclusivity 3 ⟨[], [], none, none, none⟩
    (by intro q hq; simp at hq)
    [CmdOp.inc "q", CmdOp.dec "q"]
    ⟨by simp, trivial, trivial⟩

/-- C4: single-call behavior of the two reinforcement operations: an
increase increments an existing count, promotes the phrase (removing
it from `candidates`, appending it to `commands`) when the incremented
count reaches the threshold, and inserts a fresh phrase with count 1;
a decrease decrements an existing count, deletes the candidate when
the count drops below 0, and is a no-op on a phrase that is not a
candidate. -/
theorem claim_C4_single_call (θ : Int) (sk : SkillData) (p : String) :
    (∀ n, lookupC sk.candidates p = some n →
      (if θ ≤ n + 1 then
        increase_command_candidate θ sk p
          = { sk with commands := sk.commands ++ [p],
                      candidates := delC sk.candidates p }
      else
        (increase_command_candidate θ sk p).commands = sk.commands
        ∧ (increase_command_candidate θ sk p).candidates
            = setC sk.candidates p (n + 1)))
    ∧ (lookupC sk.candidates p = none →
        (increase_command_candidate θ sk p).commands = sk.commands
        ∧ (increase_command_candidate θ sk p).candidates = setC sk.candidates p 1)
    ∧ (∀ n, lookupC sk.candidates p = some n →
      (if n - 1 < 0 then
        decrease_command_candidate θ sk p
          = { sk with candidates := delC sk.candidates p }
      else
        (decrease_command_candidate θ sk p).candidates
          = setC sk.candidates p (n - 1)
        ∧ (decrease_command_candidate θ sk p).commands = sk.commands))
    ∧ (lookupC sk.candidates p = none → decrease_command_candidate θ sk p = sk) := by
  refine ⟨?_, ?_, ?_, ?_⟩
  · intro n hl
    by_cases hth : θ ≤ n + 1 <;>
      simp [increase_command_candidate, hl, hth]
  · intro hl
    simp [increase_command_candidate, hl]
  · intro n hl
    by_cases hneg : n - 1 < 0 <;>
      simp [decrease_command_candidate, hl, hneg]
  · intro hl
    simp [decrease_command_candidate, hl]

/-- Witness for C4 at a concrete entry: promoting at the threshold and
dropping a count-0 candidate. -/
theorem claim_C4_single_call_witness :
    increase_command_candidate 3 ⟨["old"], [("w", 2)], none, none, none⟩ "w"
      = ⟨["old", "w"], [], none, none, none⟩
    ∧ decrease_command_candidate 3 ⟨["old"], [("z", 0)], none, none, none⟩ "z"
      = ⟨["old"], [], none, none, none⟩ := by
  constructor
  · have h := (claim_C4_single_call 3 ⟨["old"], [("w", 2)], none, none, none⟩ "w").1
      2 (by decide)
    rw [if_pos (by norm_num)] at h
    exact h.trans (by decide)
  · have h := (claim_C4_single_call 3 ⟨["old"], [("z", 0)], none, none, none⟩ "z").2.2.1
      0 (by decide)
    rw [if_pos (by norm_num)] at h
    exact h.trans (by decide)

/-- C7: for a skill present in the table whose entry has one of the
documented shapes, `do_skill` returns a response string and never
raises: every branch of the dispatch yields `some` response. -/
theorem claim_C7_dispatch_total (env : Env) (skills : SkillTable) (flag : Bool)
    (skill operand : String) (d : SkillData)
    (hl : lookupSkill skills skill = some d) (hwf : wellFormedEntry skill d) :
    ((do_skill env skills flag skill operand).1).isSome := by
  unfold do_skill
  rw [hl]
  rcases hwf with ⟨r, hr⟩ | ⟨l, hl2, hne⟩ | ⟨hr, hrand, hdate⟩
  · simp [hr]
  · cases hresp : d.response with
    | some r => simp [hresp]
    | none =>
      simp only [hresp, hl2, randomChoice]
      rw [Option.isSome_iff_ne_none]
      intro hnone
      rw [List.get?_eq_none] at hnone
      have hlen : 0 < l.length := List.length_pos.mpr hne
      have := Nat.mod_lt env.pick hlen
      omega
  · simp only [hr, hrand]
    by_cases hH : skill = "help"
    · simp only [hH, if_true]
      by_cases ho : operand = ""
      · simp [ho]
      · rw [if_pos ho]
        cases lookupSkill skills operand <;> simp
    · by_cases hD : skill = "date"
      · cases hpat : d.pattern with
        | some pat => simp [hH, hD, hpat]
        | none => simp [hD, hpat] at hdate
      · by_cases hT : skill = "time"
        · simp [hH, hD, hT]
        · by_cases hQ : skill = "quit"
          · simp [hH, hD, hT, hQ]
          · by_cases hO : skill = "turn on"
            · by_cases ho : operand = "" <;> simp [hH, hD, hT, hQ, hO, ho]
            · simp [hH, hD, hT, hQ, hO]

/-- Witness for C7: a code-handled `time` skill dispatches to a
response. -/
theorem claim_C7_dispatch_total_witness :
    ((do_skill ⟨0, fun _ => "It is now 12:00"⟩
        [("time", ⟨[], [], none, none, none⟩)] false "time" "").1).isSome :=
  claim_C7_dispatch_total ⟨0, fun _ => "It is now 12:00"⟩
    [("time", ⟨[], [], none, none, none⟩)] false "time" ""
    ⟨[], [], none, none, none⟩ rfl
    (Or.inr (Or.inr ⟨rfl, rfl, by intro h; simp at h⟩))

/-- C8: with a `help` entry of the code-handled shape, a non-empty
operand naming an existing skill yields the introductory line followed
by that skill's committed commands joined by the fixed separator; an
empty or unknown operand yields the usage line followed by all skill
names in sorted order (the listing is a sorted permutation of the
table's skill names), and an unknown name still yields a response. -/
theorem claim_C8_help_listing (env : Env) (skills : SkillTable) (flag : Bool)
    (operand : String) (d : SkillData)
    (hl : lookupSkill skills "help" = some d)
    (hresp : d.response = none) (hrand : d.random = none) :
    (operand ≠ "" → ∀ d2, lookupSkill skills operand = some d2 →
      do_skill env skills flag "help" operand
        = (some (helpForSkill operand d2), flag))
    ∧ ((operand = "" ∨ lookupSkill skills operand = none) →
      do_skill env skills flag "help" operand
        = (some (helpGeneral skills), flag))
    ∧ (List.insertionSort pyLe (skills.map Prod.fst)).Sorted pyLe
    ∧ (List.insertionSort pyLe (skills.map Prod.fst)).Perm (skills.map Prod.fst)
    ∧ ((do_skill env skills flag "help" operand).1).isSome := by
  have hmain : (operand ≠ "" → ∀ d2, lookupSkill skills operand = some d2 →
      do_skill env skills flag "help" operand
        = (some (helpForSkill operand d2), flag))
    ∧ ((operand = "" ∨ lookupSkill skills operand = none) →
      do_skill env skills flag "help" operand
        = (some (helpGeneral skills), flag)) := by
    constructor
    · intro ho d2 hl2
      simp [do_skill, hl, hresp, hrand, ho, hl2]
    · intro h
      rcases h with h | h
      · simp [do_skill, hl, hresp, hrand, h]
      · by_cases ho : operand = ""
        · simp [do_skill, hl, hresp, hrand, ho]
        · simp [do_skill, hl, hresp, hrand, ho, h]
  refine ⟨hmain.1, hmain.2, List.sorted_insertionSort _ _, List.perm_insertionSort _ _, ?_⟩
  by_cases ho : operand = ""
  · rw [hmain.2 (Or.inl ho)]
    rfl
  · cases hop : lookupSkill skills operand with
    | none => rw [hmain.2 (Or.inr hop)]; rfl
    | some d2 => rw [hmain.1 ho d2 hop]; rfl

/-- Witness for C8 on a concrete table: `help joke` lists the two
committed commands of `joke`, and `help` alone lists the skill names
sorted. -/
theorem claim_C8_help_listing_witness :
    do_skill ⟨0, fun _ => ""⟩
      [("zeta", ⟨[], [], some "z", none, none⟩),
       ("help", ⟨[], [], none, none, none⟩),
       ("joke", ⟨["joke", "tell me a joke"], [], none, none, none⟩)]
      false "help" "joke"
      = (some "These commands are available for the \"joke\" skill: ... joke: ... tell me a joke", false)
    ∧ do_skill ⟨0, fun _ => ""⟩
      [("zeta", ⟨[], [], some "z", none, none⟩),
       ("help", ⟨[], [], none, none, none⟩),
       ("joke", ⟨["joke", "tell me a joke"], [], none, none, none⟩)]
      false "help" ""
      = (some "To list commands for a specific skill, simply say \"help\" followed by the name of the skill.  The following skills are currently supported: ... help: ... joke: ... zeta", false) := by
  constructor
  · exact ((claim_C8_help_listing ⟨0, fun _ => ""⟩
      [("zeta", ⟨[], [], some "z", none, none⟩),
       ("help", ⟨[], [], none, none, none⟩),
       ("joke", ⟨["joke", "tell me a joke"], [], none, none, none⟩)]
      false "joke" ⟨[], [], none, none, none⟩ (by decide) rfl rfl).1 (by decide)
      ⟨["joke", "tell me a joke"], [], none, none, none⟩ (by decide)).trans (by decide)
  · exact ((claim_C8_help_listing ⟨0, fun _ => ""⟩
      [("zeta", ⟨[], [], some "z", none, none⟩),
       ("help", ⟨[], [], none, none, none⟩),
       ("joke", ⟨["joke", "tell me a joke"], [], none, none, none⟩)]
      false "" ⟨[], [], none, none, none⟩ (by decide) rfl rfl).2.1
      (Or.inl rfl)).trans (by decide)

/-- C9: a code-handled `quit` entry returns the fixed confirmation
string and sets the exit flag; dispatching any skill whose name is not
`quit` leaves the exit flag unchanged, whatever its entry looks
like. -/
theorem claim_C9_quit_flag (env : Env) (skills : SkillTable) (flag : Bool)
    (operand : String) (d : SkillData)
    (hl : lookupSkill skills "quit" = some d)
    (hresp : d.response = none) (hrand : d.random = none) :
    do_skill env skills flag "quit" operand = (some "Stopping now", true)
    ∧ ∀ (name op : String), name ≠ "quit" →
        (do_skill env skills flag name op).2 = flag := by
  constructor
  · simp [do_skill, hl, hresp, hrand]
  · intro name op hname
    cases hl1 : lookupSkill skills name with
    | none => simp [do_skill, hl1]
    | some d1 =>
      cases hresp1 : d1.response with
      | some r => simp [do_skill, hl1, hresp1]
      | none =>
        cases hrand1 : d1.random with
        | some l => simp [do_skill, hl1, hresp1, hrand1]
        | none =>
          by_cases hH : name = "help"
          · subst hH
            by_cases ho : op = ""
            · simp [do_skill, hl1, hresp1, hrand1, ho]
            · cases hop : lookupSkill skills op <;>
                simp [do_skill, hl1, hresp1, hrand1, ho, hop]
          · by_cases hD : name = "date"
            · subst hD
              cases hpat : d1.pattern <;>
                simp [do_skill, hl1, hresp1, hrand1, hH, hpat]
            · by_cases hT : name = "time"
              · subst hT
                simp [do_skill, hl1, hresp1, hrand1, hH, hD]
              · by_cases hO : name = "turn on"
                · subst hO
                  by_cases ho : op = "" <;>
                    simp [do_skill, hl1, hresp1, hrand1, hH, hD, hT, hname, ho]
                · simp [do_skill, hl1, hresp1, hrand1, hH, hD, hT, hname, hO]

/-- Witness for C9 on a concrete table: `quit` answers and raises the
flag; `greeting` leaves the flag down. -/
theorem claim_C9_quit_flag_witness :
    do_skill ⟨0, fun _ => ""⟩
      [("quit", ⟨["stop"], [], none, none, none⟩),
       ("greeting", ⟨[], [], some "Hello yourself!", none, none⟩)]
      false "quit" "" = (some "Stopping now", true)
    ∧ (do_skill ⟨0, fun _ => ""⟩
      [("quit", ⟨["stop"], [], none, none, none⟩),
       ("greeting", ⟨[], [], some "Hello yourself!", none, none⟩)]
      false "greeting" "").2 = false := by
  constructor
  · exact (claim_C9_quit_flag ⟨0, fun _ => ""⟩
      [("quit", ⟨["stop"], [], none, none, none⟩),
       ("greeting", ⟨[], [], some "Hello yourself!", none, none⟩)]
      false "" ⟨["stop"], [], none, none, none⟩ (by decide) rfl rfl).1
  · exact (claim_C9_quit_flag ⟨0, fun _ => ""⟩
      [("quit", ⟨["stop"], [], none, none, none⟩),
       ("greeting", ⟨[], [], some "Hello yourself!", none, none⟩)]
      false "" ⟨["stop"], [], none, none, none⟩ (by decide) rfl rfl).2
      "greeting" "" (by decide)

/-- C10 (implicit): an entry carrying a `response` key returns that
fixed string for every operand, before the `random` key and before any
name-based handling; in particular a `quit` entry with a `response`
key never reaches the branch that sets the exit flag. -/
theorem claim_C10_response_precedence (env : Env) (skills : SkillTable)
    (flag : Bool) (name operand : String) (d : SkillData) (r : String)
    (hl : lookupSkill skills name = some d) (hr : d.response = some r) :
    do_skill env skills flag name operand = (some r, flag) := by
  simp [do_skill, hl, hr]

/-- Witness for C10: a `quit` entry that carries both a `response`
and a `random` key returns the fixed string with the flag left
alone. -/
theorem claim_C10_response_precedence_witness :
    do_skill ⟨0, fun _ => ""⟩
      [("quit", ⟨[], [], some "Bye", some ["a", "b"], none⟩)]
      false "quit" "anything" = (some "Bye", false) :=
  claim_C10_response_precedence ⟨0, fun _ => ""⟩
    [("quit", ⟨[], [], some "Bye", some ["a", "b"], none⟩)]
    false "quit" "anything" ⟨[], [], some "Bye", some ["a", "b"], none⟩
    "Bye" rfl rfl

/-- Flattening one skill into the scan order: the first changed leader
of the skill decides the hit before the rest of the scan is
consulted. -/
theorem firstHit_append_skill (phrase name : String) (cmds : List String)
    (rest : List (String × String)) :
    firstHit phrase ((cmds.map (fun c => (name, c))) ++ rest)
      = (match firstChanged phrase cmds with
         | some op => some (name, op)
         | none => firstHit phrase rest) := by
  induction cmds with
  | nil => simp [firstChanged]
  | cons c cs ih =>
    by_cases h : removeLeadingWordsS phrase c ≠ phrase
    · simp [firstHit, firstChanged, h]
    · simp [firstHit, firstChanged, h, ih]

/-- If the first hit of the flattened scan is `(n, op)` and dispatching
it gives a truthy response, the matching loop returns that dispatch,
whatever partial response it was carrying. -/
theorem pcLoop_firstHit (env : Env) (table : SkillTable) (phrase : String)
    (skills : List (String × SkillData)) (flag : Bool) (resp : Option String)
    (n op r : String) (flag1 : Bool)
    (hhit : firstHit phrase (scanOrder skills) = some (n, op))
    (hdo : do_skill env table flag n op = (some r, flag1)) (hr : r ≠ "") :
    pcLoop env table phrase skills flag resp = .done (some r) flag1 := by
  induction skills generalizing resp with
  | nil => simp [scanOrder, firstHit] at hhit
  | cons sk rest ih =>
    obtain ⟨name, d⟩ := sk
    rw [show scanOrder ((name, d) :: rest)
          = ((name :: d.commands).map (fun c => (name, c))) ++ scanOrder rest
        from by simp [scanOrder]] at hhit
    rw [firstHit_append_skill] at hhit
    cases hfc : firstChanged phrase (name :: d.commands) with
    | some op0 =>
      simp only [hfc, Option.some.injEq, Prod.mk.injEq] at hhit
      obtain ⟨hn, hop⟩ := hhit
      subst hn
      subst hop
      simp [pcLoop, hfc, hdo, hr]
    | none =>
      simp only [hfc] at hhit
      simp only [pcLoop, hfc]
      exact ih resp hhit

/-- C5: the claim fails on the code when a matched skill's dispatch
yields an empty (falsy) response: on the table below, the first leader
that changes the phrase "alpha" belongs to skill `alpha` (with empty
operand), whose fixed response is the empty string, yet scanning
continues and the returned response comes from the later skill `beta`
instead of stopping at `alpha`. -/
theorem claim_C5_counterexample :
    firstHit "alpha"
      (scanOrder
        [("alpha", ⟨[], [], some "", none, none⟩),
         ("beta", ⟨["alpha"], [], some "Hi", none, none⟩)])
      = some ("alpha", "")
    ∧ do_skill ⟨0, fun _ => ""⟩
        [("alpha", ⟨[], [], some "", none, none⟩),
         ("beta", ⟨["alpha"], [], some "Hi", none, none⟩)]
        false "alpha" "" = (some "", false)
    ∧ process_command ⟨0, fun _ => ""⟩
        [("alpha", ⟨[], [], some "", none, none⟩),
         ("beta", ⟨["alpha"], [], some "Hi", none, none⟩)]
        (fun _ f => .raised f) (some "alpha") false
      = .done (some "Hi") false := by
  refine ⟨by decide, by decide, by decide⟩

/-- C5 (amended): on a non-empty phrase, `process_command` scans
skills in table order and, within a skill, the leaders
`[skill_name] + commands` in list order; the first leader whose
removal changes the phrase is the match, the remainder is the operand,
and the matched skill is dispatched; provided the dispatched response
is non-empty, all iteration stops and that response is returned. -/
theorem claim_C5_first_match (env : Env) (table : SkillTable)
    (learn : String → Bool → PCResult) (phrase : String) (hp : phrase ≠ "")
    (n op r : String) (flag flag1 : Bool)
    (hhit : firstHit phrase (scanOrder table) = some (n, op))
    (hdo : do_skill env table flag n op = (some r, flag1)) (hr : r ≠ "") :
    process_command env table learn (some phrase) flag = .done (some r) flag1 := by
  simp only [process_command, hp, if_false]
  rw [pcLoop_firstHit env table phrase table flag none n op r flag1 hhit hdo hr]
  simp [hr]

/-- Witness for C5 (amended), the scenario from the specification:
on the table with skill `greeting`, commands `["hello", "hi"]` and
fixed response "Hello yourself!", the input "hello" matches skill
`greeting` with empty operand and returns the fixed response. -/
theorem claim_C5_first_match_witness :
    firstHit "hello"
      (scanOrder [("greeting", ⟨["hello", "hi"], [], some "Hello yourself!", none, none⟩)])
      = some ("greeting", "")
    ∧ process_command ⟨0, fun _ => ""⟩
        [("greeting", ⟨["hello", "hi"], [], some "Hello yourself!", none, none⟩)]
        (fun _ f => .raised f) (some "hello") false
      = .done (some "Hello yourself!") false :=
  ⟨by decide,
   claim_C5_first_match ⟨0, fun _ => ""⟩
     [("greeting", ⟨["hello", "hi"], [], some "Hello yourself!", none, none⟩)]
     (fun _ f => .raised f) "hello" (by decide) "greeting" "" "Hello yourself!"
     false false (by decide) (by decide) (by decide)⟩

/-- C1: what the code actually does when the wake word is required but
is not a token-prefix of the phrase: `process_phrase` returns `None`
(the diagnostic string built on line 250 of `listen_loop.py` is
immediately overwritten by `None` on line 251), and no command
processing is attempted — the result does not depend on the command
processor at all. -/
theorem claim_C1_wake_word_behavior (pc : String → Bool → PCResult)
    (aliasWord phrase : String) (flag : Bool)
    (h : starts_with (some phrase.data) aliasWord.data = false) :
    process_phrase pc aliasWord (some phrase) true flag = .done none flag := by
  simp [process_phrase, h, wakeWordMissing]

/-- Witness for C1 at the failing input: alias "Panda", heard phrase
"hello there", wake word required. -/
theorem claim_C1_wake_word_behavior_witness :
    process_phrase (fun _ f => .raised f) "Panda" (some "hello there") true false
      = .done none false :=
  claim_C1_wake_word_behavior (fun _ f => .raised f) "Panda" "hello there"
    false (by decide)

/-- A stretch of characters containing no whitespace. -/
def NoWs (w : List Char) : Prop :=
  ∀ c ∈ w, c.isWhitespace = false

/-- A proper word: non-empty and whitespace-free. -/
def NiceWord (w : Word) : Prop :=
  w ≠ [] ∧ NoWs w

/-- A list of proper words. -/
def NiceWords (ws : List Word) : Prop :=
  ∀ w ∈ ws, NiceWord w

theorem noWs_nil : NoWs [] := by
  intro c hc
  simp at hc

theorem splitWsAux_nice (l : List Char) :
    ∀ acc, NoWs acc → NiceWords (splitWsAux l acc) := by
  induction l with
  | nil =>
    intro acc hacc
    by_cases h : acc = []
    · simp [splitWsAux, h, NiceWords]
    · simp only [splitWsAux, h, if_false]
      intro w hw
      rcases (by simpa using hw : w = acc.reverse) with rfl
      refine ⟨by simpa using h, ?_⟩
      intro c hc
      exact hacc c (List.mem_reverse.mp hc)
  | cons c cs ih =>
    intro acc hacc
    by_cases hws : c.isWhitespace
    · by_cases h : acc = []
      · simpa [splitWsAux, hws, h] using ih [] noWs_nil
      · simp only [splitWsAux, hws, if_true, h, if_false]
        intro w hw
        rcases List.mem_cons.mp hw with rfl | hw2
        · refine ⟨by simpa using h, ?_⟩
          intro x hx
          exact hacc x (List.mem_reverse.mp hx)
        · exact ih [] noWs_nil w hw2
    · simp only [splitWsAux, hws, if_false]
      refine ih (c :: acc) ?_
      intro x hx
      rcases List.mem_cons.mp hx with rfl | hx2
      · simpa using hws
      · exact hacc x hx2

/-- Every token produced by the Python-style splitter is a proper
word. -/
theorem splitWs_nice (l : List Char) : NiceWords (splitWs l) :=
  splitWsAux_nice l [] noWs_nil

theorem splitWsAux_word (w : List Char) (hw : NoWs w) :
    ∀ (l acc : List Char), splitWsAux (w ++ l) acc = splitWsAux l (w.reverse ++ acc) := by
  induction w with
  | nil => intro l acc; simp
  | cons c cs ih =>
    intro l acc
    have hc : c.isWhitespace = false := hw c (List.mem_cons_self c cs)
    have hcs : NoWs cs := fun x hx => hw x (List.mem_cons_of_mem c hx)
    show splitWsAux (c :: (cs ++ l)) acc = splitWsAux l ((c :: cs).reverse ++ acc)
    rw [show splitWsAux (c :: (cs ++ l)) acc = splitWsAux (cs ++ l) (c :: acc) from by
      simp [splitWsAux, hc]]
    rw [ih hcs l (c :: acc)]
    simp

theorem splitWsAux_space (l acc : List Char) (h : acc ≠ []) :
    splitWsAux (' ' :: l) acc = acc.reverse :: splitWsAux l [] := by
  simp [splitWsAux, h]

/-- Splitting a single-space join of proper words recovers the words:
the Python-style splitter is a left inverse of the joiner on proper
word lists. -/
theorem splitWs_joinW (ws : List Word) (h : NiceWords ws) :
    splitWs (joinW ws) = ws := by
  induction ws with
  | nil => simp [joinW, splitWs, splitWsAux]
  | cons w tail ih =>
    have hw : NiceWord w := h w (List.mem_cons_self w tail)
    have htail : NiceWords tail := fun x hx => h x (List.mem_cons_of_mem w hx)
    cases tail with
    | nil =>
      show splitWs (joinW [w]) = [w]
      have : joinW [w] = w := rfl
      rw [this]
      unfold splitWs
      rw [show w = w ++ ([] : List Char) from by simp, splitWsAux_word w hw.2 [] []]
      simp [splitWsAux, hw.1]
    | cons x ws2 =>
      show splitWs (w ++ ' ' :: joinW (x :: ws2)) = w :: x :: ws2
      unfold splitWs
      rw [splitWsAux_word w hw.2 (' ' :: joinW (x :: ws2)) []]
      rw [List.append_nil, splitWsAux_space _ _ (by simpa using hw.1)]
      rw [List.reverse_reverse]
      exact congrArg (w :: ·) (ih htail)

/-- The single-space join is injective on proper word lists. -/
theorem joinW_inj (ws1 ws2 : List Word) (h1 : NiceWords ws1)
    (h2 : NiceWords ws2) (h : joinW ws1 = joinW ws2) : ws1 = ws2 := by
  rw [← splitWs_joinW ws1 h1, ← splitWs_joinW ws2 h2, h]

/-- Lowercasing commutes with the single-space join (a space is fixed
by `Char.toLower`). -/
theorem lowerW_joinW (ws : List Word) :
    lowerW (joinW ws) = joinW (ws.map lowerW) := by
  induction ws with
  | nil => simp [joinW, lowerW]
  | cons w tail ih =>
    cases tail with
    | nil => simp [joinW, lowerW]
    | cons x ws2 =>
      show lowerW (w ++ ' ' :: joinW (x :: ws2))
        = lowerW w ++ ' ' :: joinW ((x :: ws2).map lowerW)
      rw [show lowerW (w ++ ' ' :: joinW (x :: ws2))
            = lowerW w ++ Char.toLower ' ' :: lowerW (joinW (x :: ws2)) from by
          simp [lowerW]]
      rw [show Char.toLower ' ' = ' ' from by decide, ih]

/-- `Char.toLower` never turns a non-whitespace character into
whitespace: it moves only the basic latin capitals, onto lowercase
letters. -/
theorem toLower_not_ws (c : Char) (h : c.isWhitespace = false) :
    (Char.toLower c).isWhitespace = false := by
  show (if c.toNat ≥ 65 ∧ c.toNat ≤ 90 then Char.ofNat (c.toNat + 32) else c).isWhitespace
    = false
  by_cases hc : c.toNat ≥ 65 ∧ c.toNat ≤ 90
  · rw [if_pos hc]
    obtain ⟨h1, h2⟩ := hc
    set n := c.toNat with hn
    interval_cases n <;> decide
  · rw [if_neg hc]
    exact h

/-- Lowercasing preserves proper word lists. -/
theorem niceWords_map_lower (ws : List Word) (h : NiceWords ws) :
    NiceWords (ws.map lowerW) := by
  intro w hw
  rcases List.mem_map.mp hw with ⟨w0, hw0, rfl⟩
  obtain ⟨hne, hno⟩ := h w0 hw0
  refine ⟨by simpa [lowerW] using hne, ?_⟩
  intro c hc
  rcases List.mem_map.mp hc with ⟨c0, hc0, rfl⟩
  exact toLower_not_ws c0 (hno c0 hc0)

/-- C6: the claim fails on the code for a leader that is not
whitespace-normalized: with phrase "hi there" and leader "hi " (note
the trailing space), the leader's tokens are a case-insensitive prefix
of the phrase's tokens, so the claim promises the remainder "there";
but the code compares the raw lowered leader "hi " with the re-joined
first token "hi" and finds no match, returning the phrase unchanged. -/
theorem claim_C6_counterexample :
    ((splitWs "hi there".data).take (splitWs "hi ".data).length).map lowerW
      = (splitWs "hi ".data).map lowerW
    ∧ remove_leading_words "hi there".data "hi ".data = "hi there".data
    ∧ joinW ((splitWs "hi there".data).drop (splitWs "hi ".data).length)
      = "there".data
    ∧ "there".data ≠ "hi there".data := by
  refine ⟨by decide, by decide, by decide, by decide⟩

/-- C6 (amended): provided the leader is whitespace-normalized (equal
to its own tokens re-joined by single spaces, as every skill name,
command and wake word is in practice), `remove_leading_words`
tokenizes both arguments on whitespace and compares the first
`len(leader_tokens)` tokens of the phrase against the leader's tokens
case-insensitively: on a match it returns the remaining tokens
re-joined with single spaces, and otherwise — including when the
phrase is absent and when the leader has more tokens than the phrase —
it returns the exact original phrase value unchanged, so callers can
detect no-match by value equality.  (For a non-normalized leader the
code compares the raw lowered leader with the re-joined phrase
prefix.) -/
theorem claim_C6_strip_leading (phrase leader : List Char)
    (hnorm : joinW (splitWs leader) = leader) :
    remove_leading_words phrase leader
      = (if phrase = [] then phrase
         else if ((splitWs phrase).take (splitWs leader).length).map lowerW
                = (splitWs leader).map lowerW
              then joinW ((splitWs phrase).drop (splitWs leader).length)
              else phrase)
    ∧ remove_leading_words_opt none leader = none
    ∧ ((splitWs phrase).length < (splitWs leader).length →
        remove_leading_words phrase leader = phrase) := by
  have nice_l : NiceWords (splitWs leader) := splitWs_nice leader
  have nice_tk : NiceWords ((splitWs phrase).take (splitWs leader).length) :=
    fun w hw => splitWs_nice phrase w (List.mem_of_mem_take hw)
  have hcond : (lowerW leader
      = lowerW (joinW ((splitWs phrase).take (splitWs leader).length)))
      ↔ ((splitWs phrase).take (splitWs leader).length).map lowerW
          = (splitWs leader).map lowerW := by
    constructor
    · intro hx
      refine (joinW_inj _ _ (niceWords_map_lower _ nice_l)
        (niceWords_map_lower _ nice_tk) ?_).symm
      calc joinW ((splitWs leader).map lowerW)
          = lowerW (joinW (splitWs leader)) := (lowerW_joinW _).symm
        _ = lowerW leader := by rw [hnorm]
        _ = lowerW (joinW ((splitWs phrase).take (splitWs leader).length)) := hx
        _ = joinW (((splitWs phrase).take (splitWs leader).length).map lowerW) :=
            lowerW_joinW _
    · intro hx
      calc lowerW leader
          = lowerW (joinW (splitWs leader)) := by rw [hnorm]
        _ = joinW ((splitWs leader).map lowerW) := lowerW_joinW _
        _ = joinW (((splitWs phrase).take (splitWs leader).length).map lowerW) := by
            rw [hx]
        _ = lowerW (joinW ((splitWs phrase).take (splitWs leader).length)) :=
            (lowerW_joinW _).symm
  have hmain : remove_leading_words phrase leader
      = (if phrase = [] then phrase
         else if ((splitWs phrase).take (splitWs leader).length).map lowerW
                = (splitWs leader).map lowerW
              then joinW ((splitWs phrase).drop (splitWs leader).length)
              else phrase) := by
    by_cases hp : phrase = []
    · simp [remove_leading_words, hp]
    · simp only [remove_leading_words, hp, if_false]
      by_cases hm : ((splitWs phrase).take (splitWs leader).length).map lowerW
          = (splitWs leader).map lowerW
      · rw [if_pos (hcond.mpr hm), if_pos hm]
      · rw [if_neg (fun hx => hm (hcond.mp hx)), if_neg hm]
  refine ⟨hmain, rfl, ?_⟩
  intro hlen
  rw [hmain]
  by_cases hp : phrase = []
  · simp [hp]
  · simp only [hp, if_false]
    rw [if_neg]
    intro hm
    have hml := congrArg List.length hm
    simp only [List.length_map, List.length_take] at hml
    omega

/-- Witness for C6 (amended) with the normalized leaders of the
specification scenarios: the wake word "Panda" is stripped
case-insensitively, and a non-matching leader returns the phrase
exactly. -/
theorem claim_C6_strip_leading_witness :
    remove_leading_words "panda turn on the lights".data "Panda".data
      = "turn on the lights".data
    ∧ remove_leading_words "hello world".data "Greetings".data
      = "hello world".data :=
  ⟨((claim_C6_strip_leading "panda turn on the lights".data "Panda".data
      (by decide)).1).trans (by decide),
   ((claim_C6_strip_leading "hello world".data "Greetings".data
      (by decide)).1).trans (by decide)⟩

end SpeechAssistant
